import Mathlib

/-!
Verification of the quantflow specification against a shallow embedding of the
package's core.  The repository's `src/` tree contains only the test driver
`comprehensive_test.py` and two example scripts; the quantflow package itself
(`quantflow.options.black_scholes.BlackScholes`, `quantflow.risk.metrics.RiskMetrics`,
`quantflow.data.fetcher.MarketData`) is not in `src/`, so those components are
modelled from the specification's words (each such definition says so in its
doc comment).  Code that does live under `src/` (the rolling-window loop and the
Monte Carlo loop of `comprehensive_test.py`, the portfolio weighting) is embedded
directly from the source.

Real-valued analytics (Black–Scholes) are embedded over `ℝ`; the standard normal
cumulative distribution function Φ and density φ are abstracted as function
parameters (the spec pins them down only as "the standard normal cumulative
distribution function Φ and density φ"); the one property of Φ the formulas rely
on, Φ(-x) = 1 - Φ(x), is an explicit hypothesis.  The list-based risk analytics
are embedded over `ℚ` so that they are executable.
-/

namespace QuantFlow

/-- Variant tag of an option contract: call or put (spec §3, a tagged two-case
enumeration). -/
inductive OptionType where
| call : OptionType
| put : OptionType
deriving DecidableEq

/-- Modelled from the spec (§3, §4.1): the immutable option contract consumed by
the `BlackScholes` engine — spot `S`, strike `K`, time to expiry `T` (years),
risk-free rate `r`, annualized volatility `sigma`, and the variant tag.  The
`BlackScholes` class itself is not under `src/`; only its callers are. -/
structure BlackScholes where
  S : ℝ
  K : ℝ
  T : ℝ
  r : ℝ
  sigma : ℝ
  option_type : OptionType

/-- Intrinsic value of a contract: max(S-K,0) for a call, max(K-S,0) for a put. -/
noncomputable def intrinsic (c : BlackScholes) : ℝ :=
  match c.option_type with
  | .call => max (c.S - c.K) 0
  | .put => max (c.K - c.S) 0

/-- Modelled from the spec (§4.1): d1 = (ln(S/K) + (r + σ²/2)T) / (σ√T). -/
noncomputable def d1 (c : BlackScholes) : ℝ :=
  (Real.log (c.S / c.K) + (c.r + c.sigma ^ 2 / 2) * c.T) / (c.sigma * Real.sqrt c.T)

/-- Modelled from the spec (§4.1): d2 = d1 - σ√T. -/
noncomputable def d2 (c : BlackScholes) : ℝ :=
  d1 c - c.sigma * Real.sqrt c.T

/-- Modelled from the spec (§4.1): the Black–Scholes price, with the degenerate
cases special-cased by explicit branches as §4.1 and §7 require.  `T = 0`
returns the intrinsic value; `σ = 0` "degenerates to a deterministic payoff",
embedded as the discounted certain payoff max(S - K·e^(-rT), 0) /
max(K·e^(-rT) - S, 0), the reading under which §4.1's own invariant (put-call
parity for any valid contract) survives the degenerate branch.  `Φ` is the
standard normal CDF, abstracted. -/
noncomputable def price (Φ : ℝ → ℝ) (c : BlackScholes) : ℝ :=
  if c.T = 0 then intrinsic c
  else if c.sigma = 0 then
    match c.option_type with
    | .call => max (c.S - c.K * Real.exp (-(c.r * c.T))) 0
    | .put => max (c.K * Real.exp (-(c.r * c.T)) - c.S) 0
  else
    match c.option_type with
    | .call => c.S * Φ (d1 c) - c.K * Real.exp (-(c.r * c.T)) * Φ (d2 c)
    | .put => c.K * Real.exp (-(c.r * c.T)) * Φ (-(d2 c)) - c.S * Φ (-(d1 c))

/-- Modelled from the spec (§4.1): delta = Φ(d1) for a call, Φ(d1) - 1 for a put;
zero in the degenerate cases (§4.1: "zero or undefined-but-defined-as-zero
Greeks"). -/
noncomputable def delta (Φ : ℝ → ℝ) (c : BlackScholes) : ℝ :=
  if c.T = 0 ∨ c.sigma = 0 then 0
  else
    match c.option_type with
    | .call => Φ (d1 c)
    | .put => Φ (d1 c) - 1

/-- Modelled from the spec (§4.1): gamma = φ(d1) / (S·σ√T), the same for both
variants; zero in the degenerate cases.  `pdf` is the standard normal density,
abstracted. -/
noncomputable def gamma (pdf : ℝ → ℝ) (c : BlackScholes) : ℝ :=
  if c.T = 0 ∨ c.sigma = 0 then 0
  else pdf (d1 c) / (c.S * c.sigma * Real.sqrt c.T)

/-- Modelled from the spec (§4.1): vega = S·φ(d1)·√T, the same for both variants;
zero in the degenerate cases. -/
noncomputable def vega (pdf : ℝ → ℝ) (c : BlackScholes) : ℝ :=
  if c.T = 0 ∨ c.sigma = 0 then 0
  else c.S * pdf (d1 c) * Real.sqrt c.T

/-- Modelled from the spec (§4.1): theta = -(S·φ(d1)·σ)/(2√T) - r·K·e^(-rT)·Φ(d2)
for a call, with the +r·K·e^(-rT)·Φ(-d2) term for a put; zero in the degenerate
cases. -/
noncomputable def theta (Φ pdf : ℝ → ℝ) (c : BlackScholes) : ℝ :=
  if c.T = 0 ∨ c.sigma = 0 then 0
  else
    match c.option_type with
    | .call =>
        -(c.S * pdf (d1 c) * c.sigma) / (2 * Real.sqrt c.T)
          - c.r * c.K * Real.exp (-(c.r * c.T)) * Φ (d2 c)
    | .put =>
        -(c.S * pdf (d1 c) * c.sigma) / (2 * Real.sqrt c.T)
          + c.r * c.K * Real.exp (-(c.r * c.T)) * Φ (-(d2 c))

/-- Modelled from the spec (§4.1): rho = K·T·e^(-rT)·Φ(d2) for a call,
-K·T·e^(-rT)·Φ(-d2) for a put; zero in the degenerate cases. -/
noncomputable def rho (Φ : ℝ → ℝ) (c : BlackScholes) : ℝ :=
  if c.T = 0 ∨ c.sigma = 0 then 0
  else
    match c.option_type with
    | .call => c.K * c.T * Real.exp (-(c.r * c.T)) * Φ (d2 c)
    | .put => -(c.K * c.T * Real.exp (-(c.r * c.T)) * Φ (-(d2 c)))

/-- Fixed-shape record of one contract evaluation (spec §3, `GreekSet`). -/
structure GreekSet where
  price : ℝ
  delta : ℝ
  gamma : ℝ
  theta : ℝ
  vega : ℝ
  rho : ℝ

/-- Modelled from the spec (§3, §4.1): `greeks()` produces the `GreekSet` record
atomically from one contract evaluation. -/
noncomputable def greeks (Φ pdf : ℝ → ℝ) (c : BlackScholes) : GreekSet :=
  ⟨price Φ c, delta Φ c, gamma pdf c, theta Φ pdf c, vega pdf c, rho Φ c⟩

/-- The single property of the standard normal CDF the Black–Scholes identities
rely on: Φ(-x) = 1 - Φ(x). -/
def IsCDFSymm (Φ : ℝ → ℝ) : Prop :=
  ∀ x : ℝ, Φ (-x) = 1 - Φ x

/-- The §8 known-value contract from `src/examples/basic_option_pricing.py`:
S=150, K=155, T=0.25, r=0.05, σ=0.25, call. -/
noncomputable def aaplCall : BlackScholes :=
  ⟨150, 155, 0.25, 0.05, 0.25, .call⟩

/-- A concrete stand-in for Φ that meets the standard-normal table brackets
used by the known-value theorem: it takes the tabulated value at the d2
abscissa of the known-value contract and the d1 tabulated value elsewhere. -/
noncomputable def tableCDF : ℝ → ℝ :=
  fun x => if x ≤ d2 aaplCall then 0.41106 else 0.46024

/-- Modelled from the spec (§4.2): the return series sorted ascending — the
"sorted return sequence" whose order statistics the risk metrics use.  The
`RiskMetrics` class itself is not under `src/`; only its callers are. -/
def sortedReturns (returns : List ℚ) : List ℚ :=
  returns.insertionSort (· ≤ ·)

/-- Modelled from the spec (§4.2): `var_historical(confidence_level)` returns
the empirical quantile of returns at the given tail probability, using the
order statistic at rank ⌊c·n⌋ of the sorted return sequence.  The sign
convention is the raw return quantile (negative for a loss), matching how the
callers in `src/` print it. -/
def var_historical (returns : List ℚ) (confidence_level : ℚ) : ℚ :=
  (sortedReturns returns).getD ⌊confidence_level * returns.length⌋₊ 0

/-- Returns at or below the VaR threshold: the tail whose mean is the Expected
Shortfall (spec §4.2). -/
def tailReturns (returns : List ℚ) (confidence_level : ℚ) : List ℚ :=
  returns.filter (fun x => x ≤ var_historical returns confidence_level)

/-- The single worst observation of the series — the head of the sorted
sequence — used by §4.2's degenerate-tail fallback policy. -/
def worstObservation (returns : List ℚ) : ℚ :=
  (sortedReturns returns).headD 0

/-- Modelled from the spec (§4.2): `expected_shortfall(confidence_level)` is
the mean of all returns at or below the VaR threshold, with the explicit
§4.2/§7 fallback policy — return the single worst observation — in the
degenerate case where the tail holds fewer than one observation. -/
def expected_shortfall (returns : List ℚ) (confidence_level : ℚ) : ℚ :=
  if tailReturns returns confidence_level = [] then worstObservation returns
  else (tailReturns returns confidence_level).sum /
    (tailReturns returns confidence_level).length

/-- Rolling-window application, embedded from `src/comprehensive_test.py` lines
196-202: `for i in range(rolling_window, len(portfolio_returns))` applies the
metric to the window `portfolio_returns.iloc[i - rolling_window : i]`. -/
def rollingApply (f : List ℚ → ℚ) (returns : List ℚ) (window : ℕ) : List ℚ :=
  (List.range' window (returns.length - window)).map
    (fun i => f ((returns.drop (i - window)).take window))

/-- Modelled from the spec (§4.2): the package's rolling variants fail with an
insufficient-data condition when the window exceeds the series length (the
package's rolling methods are not under `src/`); otherwise they produce the
windowed sequence of `rollingApply`. -/
def rollingChecked (f : List ℚ → ℚ) (returns : List ℚ) (window : ℕ) :
    Option (List ℚ) :=
  if window ≤ returns.length then some (rollingApply f returns window) else none

/-- One Monte Carlo trial, embedded from `src/comprehensive_test.py` lines
323-326: starting from the initial value, each draw compounds multiplicatively,
`portfolio_value *= (1 + daily_return)`. -/
def trialValue (draws : List ℚ) (V0 : ℚ) : ℚ :=
  draws.foldl (fun value d => value * (1 + d)) V0

/-- Monte Carlo simulation, embedded from `src/comprehensive_test.py` lines
317-330, with the seeded normal stream abstracted: `gen seed i j` stands for
the j-th standard normal draw of trial i under the given seed (numpy's seeded
generator is external to the repository), so trial i draws
`mu + sigma * gen seed i j` for j < H and compounds all of them onto `V0`. -/
def simulate (gen : ℕ → ℕ → ℕ → ℚ) (seed : ℕ) (mu sigma : ℚ) (N H : ℕ)
    (V0 : ℚ) : List ℚ :=
  (List.range N).map (fun i =>
    trialValue ((List.range H).map (fun j => mu + sigma * gen seed i j)) V0)

/-- Modelled from the spec (§4.4): `combine(returns_by_asset, weights)` — for
each time index the combined return is the weighted sum of the per-asset
returns at that index; it fails unless the weight vector matches the asset list
and all per-asset series are aligned on one index (asset identifiers abstracted
to list positions).  The weighting itself also appears under `src/` as
`(returns_data * portfolio_weights).sum(axis=1)`. -/
def combine (series : List (List ℚ)) (weights : List ℚ) : Option (List ℚ) :=
  if series.length = weights.length ∧
      ∀ s ∈ series, s.length = (series.headD []).length then
    some ((List.range (series.headD []).length).map
      (fun t => ((series.zip weights).map (fun p => p.2 * p.1.getD t 0)).sum))
  else none

end QuantFlow

namespace QuantFlow

/-- Helper: d1 does not depend on the variant tag. -/
theorem d1_put_eq (S K T r sigma : ℝ) :
    d1 ⟨S, K, T, r, sigma, .put⟩ = d1 ⟨S, K, T, r, sigma, .call⟩ := rfl

/-- Helper: d2 does not depend on the variant tag. -/
theorem d2_put_eq (S K T r sigma : ℝ) :
    d2 ⟨S, K, T, r, sigma, .put⟩ = d2 ⟨S, K, T, r, sigma, .call⟩ := rfl

/-- C1: put-call parity — for every valid contract (S>0, K>0, T≥0, any r, σ≥0),
the call price minus the put price on the same (S, K, T, r, σ) equals
S - K·e^(-rT) to within 1e-6 (the difference is in fact exactly zero in the
real-number model, in every branch of `price`). -/
theorem put_call_parity (Φ : ℝ → ℝ) (hΦ : IsCDFSymm Φ) (S K T r sigma : ℝ)
    (hS : 0 < S) (hK : 0 < K) (hT : 0 ≤ T) (hsig : 0 ≤ sigma) :
    |price Φ ⟨S, K, T, r, sigma, .call⟩ - price Φ ⟨S, K, T, r, sigma, .put⟩ -
      (S - K * Real.exp (-(r * T)))| < 1e-6 := by
  have key : price Φ ⟨S, K, T, r, sigma, .call⟩ - price Φ ⟨S, K, T, r, sigma, .put⟩ =
      S - K * Real.exp (-(r * T)) := by
    by_cases hT0 : T = 0
    · subst hT0
      have hc : price Φ ⟨S, K, 0, r, sigma, .call⟩ = max (S - K) 0 := by
        simp [price, intrinsic]
      have hp : price Φ ⟨S, K, 0, r, sigma, .put⟩ = max (K - S) 0 := by
        simp [price, intrinsic]
      rw [hc, hp, mul_zero, neg_zero, Real.exp_zero, mul_one]
      rcases le_total S K with h | h
      · rw [max_eq_right (sub_nonpos.mpr h), max_eq_left (sub_nonneg.mpr h)]; ring
      · rw [max_eq_left (sub_nonneg.mpr h), max_eq_right (sub_nonpos.mpr h)]; ring
    · by_cases hs0 : sigma = 0
      · have hc : price Φ ⟨S, K, T, r, sigma, .call⟩ =
            max (S - K * Real.exp (-(r * T))) 0 := by
          simp [price, hT0, hs0]
        have hp : price Φ ⟨S, K, T, r, sigma, .put⟩ =
            max (K * Real.exp (-(r * T)) - S) 0 := by
          simp [price, hT0, hs0]
        rw [hc, hp]
        rcases le_total S (K * Real.exp (-(r * T))) with h | h
        · rw [max_eq_right (sub_nonpos.mpr h), max_eq_left (sub_nonneg.mpr h)]; ring
        · rw [max_eq_left (sub_nonneg.mpr h), max_eq_right (sub_nonpos.mpr h)]; ring
      · simp only [price, if_neg hT0, if_neg hs0]
        have h1 := hΦ (d1 ⟨S, K, T, r, sigma, .call⟩)
        have h2 := hΦ (d2 ⟨S, K, T, r, sigma, .call⟩)
        have hd1 : d1 ⟨S, K, T, r, sigma, .put⟩ = d1 ⟨S, K, T, r, sigma, .call⟩ := rfl
        have hd2 : d2 ⟨S, K, T, r, sigma, .put⟩ = d2 ⟨S, K, T, r, sigma, .call⟩ := rfl
        rw [hd1, hd2, h1, h2]
        ring
  rw [key]
  norm_num

/-- Witness for C1 at the concrete contract S=150, K=155, T=0.25, r=0.05,
σ=0.25, with the constant one-half function standing in for Φ (it satisfies the
symmetry hypothesis). -/
theorem put_call_parity_witness :
    |price (fun _ => 1 / 2) ⟨150, 155, 0.25, 0.05, 0.25, .call⟩ -
      price (fun _ => 1 / 2) ⟨150, 155, 0.25, 0.05, 0.25, .put⟩ -
      (150 - 155 * Real.exp (-(0.05 * 0.25)))| < 1e-6 :=
  put_call_parity (fun _ => 1 / 2) (fun x => by norm_num) 150 155 0.25 0.05 0.25
    (by norm_num) (by norm_num) (by norm_num) (by norm_num)

/-- C2 counterexample: at the valid contract S=1, K=1, T=0, r=0, σ=1 (the spec
admits T ≥ 0) the degenerate branch mandated by §4.1 sets every Greek to zero,
so delta_call - delta_put = 0, not ≈ 1.  The constant function standing in for
Φ satisfies the CDF symmetry, so the contract lies within the claim's scope. -/
theorem greek_consistency_cex :
    IsCDFSymm (fun _ => 1 / 2) ∧
    ¬ (|delta (fun _ => 1 / 2) ⟨1, 1, 0, 0, 1, .call⟩ -
        delta (fun _ => 1 / 2) ⟨1, 1, 0, 0, 1, .put⟩ - 1| < 1e-6) := by
  constructor
  · intro x; norm_num
  · have h1 : delta (fun _ => (1 : ℝ) / 2) ⟨1, 1, 0, 0, 1, .call⟩ = 0 := by
      simp [delta]
    have h2 : delta (fun _ => (1 : ℝ) / 2) ⟨1, 1, 0, 0, 1, .put⟩ = 0 := by
      simp [delta]
    rw [h1, h2]
    norm_num

/-- C2 (amended): for every non-degenerate valid contract (T > 0 and σ > 0),
gamma and vega agree between the call and the put built from the same
(S, K, T, r, σ), the delta of the call minus the delta of the put is exactly 1,
and theta and rho differ by variant exactly as the §4.1 formulas dictate: the
theta difference is -r·K·e^(-rT) and the rho difference is K·T·e^(-rT).  At
T = 0 or σ = 0 all Greeks are zero by the §4.1 degenerate rule, so there the
delta difference is 0 (see the counterexample). -/
theorem greek_consistency (Φ pdf : ℝ → ℝ) (hΦ : IsCDFSymm Φ) (S K T r sigma : ℝ)
    (hS : 0 < S) (hK : 0 < K) (hT : 0 < T) (hsig : 0 < sigma) :
    gamma pdf ⟨S, K, T, r, sigma, .call⟩ = gamma pdf ⟨S, K, T, r, sigma, .put⟩ ∧
    vega pdf ⟨S, K, T, r, sigma, .call⟩ = vega pdf ⟨S, K, T, r, sigma, .put⟩ ∧
    delta Φ ⟨S, K, T, r, sigma, .call⟩ - delta Φ ⟨S, K, T, r, sigma, .put⟩ = 1 ∧
    theta Φ pdf ⟨S, K, T, r, sigma, .call⟩ - theta Φ pdf ⟨S, K, T, r, sigma, .put⟩ =
      -(r * K * Real.exp (-(r * T))) ∧
    rho Φ ⟨S, K, T, r, sigma, .call⟩ - rho Φ ⟨S, K, T, r, sigma, .put⟩ =
      K * T * Real.exp (-(r * T)) := by
  have hTne : T ≠ 0 := ne_of_gt hT
  have hsne : sigma ≠ 0 := ne_of_gt hsig
  refine ⟨rfl, rfl, ?_, ?_, ?_⟩
  · have hc : delta Φ ⟨S, K, T, r, sigma, .call⟩ = Φ (d1 ⟨S, K, T, r, sigma, .call⟩) := by
      simp [delta, hTne, hsne]
    have hp : delta Φ ⟨S, K, T, r, sigma, .put⟩ = Φ (d1 ⟨S, K, T, r, sigma, .call⟩) - 1 := by
      simp [delta, hTne, hsne, d1_put_eq]
    rw [hc, hp]; ring
  · have hc : theta Φ pdf ⟨S, K, T, r, sigma, .call⟩ =
        -(S * pdf (d1 ⟨S, K, T, r, sigma, .call⟩) * sigma) / (2 * Real.sqrt T)
          - r * K * Real.exp (-(r * T)) * Φ (d2 ⟨S, K, T, r, sigma, .call⟩) := by
      simp [theta, hTne, hsne]
    have hp : theta Φ pdf ⟨S, K, T, r, sigma, .put⟩ =
        -(S * pdf (d1 ⟨S, K, T, r, sigma, .call⟩) * sigma) / (2 * Real.sqrt T)
          + r * K * Real.exp (-(r * T)) * Φ (-(d2 ⟨S, K, T, r, sigma, .call⟩)) := by
      simp [theta, hTne, hsne, d1_put_eq, d2_put_eq]
    rw [hc, hp, hΦ (d2 ⟨S, K, T, r, sigma, .call⟩)]; ring
  · have hc : rho Φ ⟨S, K, T, r, sigma, .call⟩ =
        K * T * Real.exp (-(r * T)) * Φ (d2 ⟨S, K, T, r, sigma, .call⟩) := by
      simp [rho, hTne, hsne]
    have hp : rho Φ ⟨S, K, T, r, sigma, .put⟩ =
        -(K * T * Real.exp (-(r * T)) * Φ (-(d2 ⟨S, K, T, r, sigma, .call⟩))) := by
      simp [rho, hTne, hsne, d2_put_eq]
    rw [hc, hp, hΦ (d2 ⟨S, K, T, r, sigma, .call⟩)]; ring

/-- Witness for C2 at the concrete contract S=150, K=155, T=0.25, r=0.05,
σ=0.25, with a symmetric stand-in for Φ and a constant stand-in for φ. -/
theorem greek_consistency_witness :
    delta (fun _ => 1 / 2) ⟨150, 155, 0.25, 0.05, 0.25, .call⟩ -
      delta (fun _ => 1 / 2) ⟨150, 155, 0.25, 0.05, 0.25, .put⟩ = 1 ∧
    gamma (fun _ => 1) ⟨150, 155, 0.25, 0.05, 0.25, .call⟩ =
      gamma (fun _ => 1) ⟨150, 155, 0.25, 0.05, 0.25, .put⟩ := by
  have h := greek_consistency (fun _ => 1 / 2) (fun _ => 1) (fun x => by norm_num)
    150 155 0.25 0.05 0.25 (by norm_num) (by norm_num) (by norm_num) (by norm_num)
  exact ⟨h.2.2.1, h.1⟩

/-- C3 counterexample: at the valid contract S=100, K=100, T=1, r=0.05, σ=0 the
§4.1 degenerate branch prices the deterministic payoff max(S - K·e^(-rT), 0) =
100·(1 - e^(-0.05)) > 0, while the intrinsic value max(S - K, 0) is 0 — with
σ = 0 the price equals the intrinsic value only at T = 0 or r = 0. -/
theorem degenerate_expiry_cex :
    price (fun _ => 1 / 2) ⟨100, 100, 1, 0.05, 0, .call⟩ ≠
      intrinsic ⟨100, 100, 1, 0.05, 0, .call⟩ := by
  have h1 : intrinsic ⟨100, 100, 1, 0.05, (0 : ℝ), .call⟩ = 0 := by
    simp [intrinsic]
  have h2 : price (fun _ => 1 / 2) ⟨100, 100, 1, 0.05, 0, .call⟩ =
      max (100 - 100 * Real.exp (-(0.05 * 1))) 0 := by
    norm_num [price]
  have h3 : Real.exp (-(0.05 * 1)) < 1 := by
    rw [Real.exp_lt_one_iff]; norm_num
  have h4 : (0 : ℝ) < 100 - 100 * Real.exp (-(0.05 * 1)) := by nlinarith
  rw [h1, h2, max_eq_left h4.le]
  exact ne_of_gt h4

/-- C3 (amended): for every valid contract, T = 0 makes `price` return exactly
the intrinsic value (max(S-K,0) for a call, max(K-S,0) for a put) and every
Greek exactly 0 (in particular a finite value, produced by the explicit
degenerate branch, not by a division by σ√T); σ = 0 makes `price` return the
deterministic discounted payoff max(S - K·e^(-rT), 0) for a call and
max(K·e^(-rT) - S, 0) for a put — which coincides with the intrinsic value only
at T = 0 or r = 0 — and likewise every Greek exactly 0. -/
theorem degenerate_expiry (Φ pdf : ℝ → ℝ) (S K T r sigma : ℝ) (ot : OptionType)
    (hT : 0 ≤ T) (hsig : 0 ≤ sigma) :
    (T = 0 →
      price Φ ⟨S, K, T, r, sigma, ot⟩ = intrinsic ⟨S, K, T, r, sigma, ot⟩ ∧
      delta Φ ⟨S, K, T, r, sigma, ot⟩ = 0 ∧
      gamma pdf ⟨S, K, T, r, sigma, ot⟩ = 0 ∧
      theta Φ pdf ⟨S, K, T, r, sigma, ot⟩ = 0 ∧
      vega pdf ⟨S, K, T, r, sigma, ot⟩ = 0 ∧
      rho Φ ⟨S, K, T, r, sigma, ot⟩ = 0) ∧
    (sigma = 0 →
      price Φ ⟨S, K, T, r, sigma, ot⟩ =
        (match ot with
          | .call => max (S - K * Real.exp (-(r * T))) 0
          | .put => max (K * Real.exp (-(r * T)) - S) 0) ∧
      delta Φ ⟨S, K, T, r, sigma, ot⟩ = 0 ∧
      gamma pdf ⟨S, K, T, r, sigma, ot⟩ = 0 ∧
      theta Φ pdf ⟨S, K, T, r, sigma, ot⟩ = 0 ∧
      vega pdf ⟨S, K, T, r, sigma, ot⟩ = 0 ∧
      rho Φ ⟨S, K, T, r, sigma, ot⟩ = 0) := by
  constructor
  · intro hT0
    subst hT0
    refine ⟨by simp [price], ?_, ?_, ?_, ?_, ?_⟩ <;>
      simp [delta, gamma, theta, vega, rho]
  · intro hs0
    subst hs0
    refine ⟨?_, ?_, ?_, ?_, ?_, ?_⟩
    · by_cases hT0 : T = 0
      · subst hT0
        cases ot <;> simp [price, intrinsic, Real.exp_zero]
      · cases ot <;> simp [price, hT0]
    all_goals simp [delta, gamma, theta, vega, rho]

/-- Witness for C3 at the concrete contract S=5, K=3, T=0, r=0.1, σ=1 (call). -/
theorem degenerate_expiry_witness :
    price (fun _ => 1 / 2) ⟨5, 3, 0, 0.1, 1, .call⟩ =
      intrinsic ⟨5, 3, 0, 0.1, 1, .call⟩ ∧
    delta (fun _ => 1 / 2) ⟨5, 3, 0, 0.1, 1, .call⟩ = 0 := by
  have h := degenerate_expiry (fun _ => 1 / 2) (fun _ => 1) 5 3 0 0.1 1 .call
    (by norm_num) (by norm_num)
  exact ⟨(h.1 rfl).1, (h.1 rfl).2.1⟩

/-- Helper: sorting preserves the length of the series. -/
theorem sortedReturns_length (returns : List ℚ) :
    (sortedReturns returns).length = returns.length :=
  List.length_insertionSort _ _

/-- Helper: sorting preserves the members of the series. -/
theorem mem_sortedReturns {x : ℚ} {returns : List ℚ} :
    x ∈ sortedReturns returns ↔ x ∈ returns :=
  List.mem_insertionSort _

/-- Helper: the head of a ≤-sorted list bounds all its members from below. -/
theorem headD_le_of_mem {l : List ℚ} (hs : l.Sorted (· ≤ ·)) {x : ℚ}
    (hx : x ∈ l) : l.headD 0 ≤ x := by
  cases l with
  | nil => cases hx
  | cons a t =>
    rcases List.mem_cons.mp hx with rfl | h
    · exact le_refl _
    · exact (List.sorted_cons.mp hs).1 x h

/-- Helper: for a non-empty series and confidence level in (0,1), the VaR order
statistic is one of the sorted observations. -/
theorem var_historical_mem (returns : List ℚ) (c : ℚ) (h : returns ≠ [])
    (hc0 : 0 ≤ c) (hc1 : c < 1) :
    var_historical returns c ∈ sortedReturns returns := by
  have hn : 0 < returns.length := List.length_pos.mpr h
  have hidx : ⌊c * returns.length⌋₊ < (sortedReturns returns).length := by
    rw [sortedReturns_length]
    have hlen : (0 : ℚ) < returns.length := by exact_mod_cast hn
    have hcn : c * returns.length < returns.length := by nlinarith
    have h0 : 0 ≤ c * (returns.length : ℚ) := by positivity
    exact (Nat.floor_lt h0).mpr hcn
  rw [var_historical, List.getD_eq_getElem _ _ hidx]
  exact List.getElem_mem hidx

/-- Helper: the single worst observation always lies in the ES tail, because it
is at or below any order statistic of the series. -/
theorem worst_mem_tail (returns : List ℚ) (c : ℚ) (h : returns ≠ [])
    (hc0 : 0 ≤ c) (hc1 : c < 1) :
    worstObservation returns ∈ tailReturns returns c := by
  have hs : (sortedReturns returns).Sorted (· ≤ ·) :=
    List.sorted_insertionSort (· ≤ ·) returns
  have hvmem := var_historical_mem returns c h hc0 hc1
  have hle : worstObservation returns ≤ var_historical returns c :=
    headD_le_of_mem hs hvmem
  have hwmem : worstObservation returns ∈ returns := by
    have hne : sortedReturns returns ≠ [] := by
      intro hnil
      have hl := sortedReturns_length returns
      rw [hnil] at hl
      exact h (List.length_eq_zero.mp hl.symm)
    cases hsr : sortedReturns returns with
    | nil => exact absurd hsr hne
    | cons a t =>
      have ha : worstObservation returns = a := by rw [worstObservation, hsr]; rfl
      rw [ha]
      have : a ∈ sortedReturns returns := by
        rw [hsr]; exact List.mem_cons_self a t
      exact mem_sortedReturns.mp this
  exact List.mem_filter.mpr ⟨hwmem, by simpa using hle⟩

/-- C4: VaR/ES ordering — for every non-empty return series and confidence
level c in (0,1), the Expected Shortfall is a loss at least as severe as the
historical VaR: ES ≤ VaR in signed return terms. -/
theorem var_es_ordering (returns : List ℚ) (c : ℚ) (h : returns ≠ [])
    (hc0 : 0 < c) (hc1 : c < 1) :
    expected_shortfall returns c ≤ var_historical returns c := by
  have hworst := worst_mem_tail returns c h hc0.le hc1
  have htail : tailReturns returns c ≠ [] := by
    intro hnil; rw [hnil] at hworst; cases hworst
  rw [expected_shortfall, if_neg htail]
  have hlenpos : (0 : ℚ) < (tailReturns returns c).length := by
    exact_mod_cast List.length_pos.mpr htail
  rw [div_le_iff₀ hlenpos]
  have hbound : ∀ x ∈ tailReturns returns c, x ≤ var_historical returns c := by
    intro x hx
    simpa using List.of_mem_filter hx
  calc (tailReturns returns c).sum
      ≤ (tailReturns returns c).length • var_historical returns c :=
        List.sum_le_card_nsmul _ _ hbound
    _ = var_historical returns c * (tailReturns returns c).length := by
        rw [nsmul_eq_mul]; ring

/-- Witness for C4 on the concrete series [-1/10, 1/50, 3/100] at confidence
level 1/20. -/
theorem var_es_ordering_witness :
    expected_shortfall [-1/10, 1/50, 3/100] (1/20) ≤
      var_historical [-1/10, 1/50, 3/100] (1/20) :=
  var_es_ordering [-1/10, 1/50, 3/100] (1/20) (by simp) (by norm_num) (by norm_num)

/-- C6: Expected Shortfall degenerate-tail policy — for every non-empty return
series and confidence level c in (0,1), `expected_shortfall` raises no error:
the tail is in fact never empty (it always contains the single worst
observation), the fallback branch for a tail with fewer than one observation
returns the single worst observation, and in the most degenerate reachable case
— exactly one observation in the tail — the result is again the single worst
observation. -/
theorem es_degenerate_policy (returns : List ℚ) (c : ℚ) (h : returns ≠ [])
    (hc0 : 0 < c) (hc1 : c < 1) :
    tailReturns returns c ≠ [] ∧
    ((tailReturns returns c).length < 1 →
      expected_shortfall returns c = worstObservation returns) ∧
    ((tailReturns returns c).length = 1 →
      expected_shortfall returns c = worstObservation returns) := by
  have hworst := worst_mem_tail returns c h hc0.le hc1
  have htail : tailReturns returns c ≠ [] := by
    intro hnil; rw [hnil] at hworst; cases hworst
  refine ⟨htail, ?_, ?_⟩
  · intro hlt
    have hnil : tailReturns returns c = [] :=
      List.length_eq_zero.mp (Nat.lt_one_iff.mp hlt)
    rw [expected_shortfall, if_pos hnil]
  · intro hone
    obtain ⟨x, hx⟩ := List.length_eq_one.mp hone
    have hxw : x = worstObservation returns := by
      rw [hx] at hworst
      exact (List.mem_singleton.mp hworst).symm
    rw [expected_shortfall, if_neg htail, hx, hxw]
    simp

/-- Witness for C6 on the singleton series [-1/20] at confidence level 1/2,
where the tail holds exactly one observation. -/
theorem es_degenerate_policy_witness :
    expected_shortfall [-1/20] (1/2) = worstObservation [-1/20] :=
  (es_degenerate_policy [-1/20] (1/2) (by simp) (by norm_num) (by norm_num)).2.2
    (by simp [tailReturns, var_historical, sortedReturns, List.insertionSort,
      List.orderedInsert]; norm_num)

/-- C5 counterexample: the rolling loop of `src/comprehensive_test.py` produces
one value per i in range(window, n), that is n - window values — on the series
[1, 2, 3, 4, 5] with window 3 it produces 2 values, not 5 - 3 - 1 = 1 as the
claim's "one shorter than (series length - window size)" reading asserts. -/
theorem rolling_length_cex :
    (rollingApply (fun l => l.sum) [1, 2, 3, 4, 5] 3).length ≠ 5 - 3 - 1 := by
  decide

/-- C5 (amended): for window ≤ series length, the rolling loop embedded from
`src/comprehensive_test.py` produces a sequence of length n - w (one window
ending at each of i = w, …, n-1; one fewer than the n - w + 1 full windows the
series admits), and the spec's checked rolling variant succeeds with exactly
that sequence; for window > series length the checked variant fails with the
insufficient-data condition, returning `none`. -/
theorem rolling_length (f : List ℚ → ℚ) (returns : List ℚ) (window : ℕ) :
    (window ≤ returns.length →
      rollingChecked f returns window = some (rollingApply f returns window) ∧
      (rollingApply f returns window).length = returns.length - window) ∧
    (returns.length < window → rollingChecked f returns window = none) := by
  constructor
  · intro hw
    refine ⟨by rw [rollingChecked, if_pos hw], ?_⟩
    rw [rollingApply, List.length_map, List.length_range']
  · intro hw
    rw [rollingChecked, if_neg (not_le.mpr hw)]

/-- Witness for C5: on [1, 2, 3, 4, 5] a window of 3 yields 5 - 3 = 2 windowed
values, and on [1, 2] a window of 3 reports insufficient data. -/
theorem rolling_length_witness :
    (rollingApply (fun l => l.sum) [1, 2, 3, 4, 5] 3).length = 5 - 3 ∧
    rollingChecked (fun l => l.sum) [1, 2] 3 = none := by
  constructor
  · have h := (rolling_length (fun l => l.sum) [1, 2, 3, 4, 5] 3).1 (by decide)
    simpa using h.2
  · exact (rolling_length (fun l => l.sum) [1, 2] 3).2 (by decide)

/-- Helper: the trial loop compounds to V0 times the product of the (1 + draw)
factors. -/
theorem trialValue_eq_prod (draws : List ℚ) (V0 : ℚ) :
    trialValue draws V0 = V0 * (draws.map (fun d => 1 + d)).prod := by
  induction draws generalizing V0 with
  | nil => simp [trialValue]
  | cons d ds ih =>
    have hstep : trialValue (d :: ds) V0 = trialValue ds (V0 * (1 + d)) := rfl
    rw [hstep, ih]
    simp only [List.map_cons, List.prod_cons]
    ring

/-- C7: Monte Carlo reproducibility — the simulated terminal values are a pure
function of (seed, μ, σ, N, H, V0) and the injected generator, so two runs with
identical inputs produce the identical sequence; the sequence has exactly N
entries, and entry i is V0 compounded multiplicatively through the H draws
μ + σ·gen(seed, i, j), i.e. V0 · ∏_j (1 + (μ + σ·gen(seed, i, j))). -/
theorem monte_carlo_reproducible (gen : ℕ → ℕ → ℕ → ℚ) (seed : ℕ)
    (mu sigma : ℚ) (N H : ℕ) (V0 : ℚ) :
    simulate gen seed mu sigma N H V0 = simulate gen seed mu sigma N H V0 ∧
    (simulate gen seed mu sigma N H V0).length = N ∧
    (∀ i, i < N → (simulate gen seed mu sigma N H V0).getD i 0 =
      V0 * ((List.range H).map (fun j => 1 + (mu + sigma * gen seed i j))).prod) := by
  refine ⟨rfl, ?_, ?_⟩
  · rw [simulate, List.length_map, List.length_range]
  · intro i hi
    have hlt : i < (simulate gen seed mu sigma N H V0).length := by
      rw [simulate, List.length_map, List.length_range]; exact hi
    rw [List.getD_eq_getElem _ _ hlt]
    simp only [simulate, List.getElem_map, List.getElem_range]
    rw [trialValue_eq_prod, List.map_map]
    rfl

/-- Witness for C7: a concrete run with the constant-1 generator, seed 42,
μ = 0, σ = 1, N = 2, H = 2, V0 = 100, evaluated at trial 0. -/
theorem monte_carlo_reproducible_witness :
    (simulate (fun _ _ _ => 1) 42 0 1 2 2 100).getD 0 0 =
      100 * ((List.range 2).map
        (fun j => 1 + (0 + 1 * (fun _ _ _ => (1 : ℚ)) 42 0 j))).prod :=
  (monte_carlo_reproducible (fun _ _ _ => 1) 42 0 1 2 2 100).2.2 0 (by norm_num)

/-- Helper: reading a list back off its own indices reproduces the list. -/
theorem map_getD_range (l : List ℚ) :
    (List.range l.length).map (fun t => l.getD t 0) = l := by
  apply List.ext_getElem
  · rw [List.length_map, List.length_range]
  · intro i h1 h2
    simp only [List.getElem_map, List.getElem_range]
    exact List.getD_eq_getElem l 0 h2

/-- C8: aggregation identity — combining two copies of a return series with any
two weights summing to 1 yields the series itself, and in general a successful
`combine` puts at every time index the weighted sum of the per-asset returns at
that index. -/
theorem combine_identity (returns : List ℚ) (w1 w2 : ℚ) (hw : w1 + w2 = 1) :
    combine [returns, returns] [w1, w2] = some returns ∧
    (∀ series weights out, combine series weights = some out →
      ∀ t, t < out.length →
        out.getD t 0 =
          ((series.zip weights).map (fun p => p.2 * p.1.getD t 0)).sum) := by
  constructor
  · have hcond : ([returns, returns] : List (List ℚ)).length =
        ([w1, w2] : List ℚ).length ∧
        ∀ s ∈ ([returns, returns] : List (List ℚ)),
          s.length = (([returns, returns] : List (List ℚ)).headD []).length := by
      refine ⟨rfl, ?_⟩
      intro s hs
      rcases List.mem_cons.mp hs with rfl | hs2
      · rfl
      · rcases List.mem_singleton.mp hs2 with rfl
        rfl
    rw [combine, if_pos hcond]
    refine congrArg some ?_
    apply List.ext_getElem
    · rw [List.length_map, List.length_range]; rfl
    · intro i h1 h2
      simp only [List.getElem_map, List.getElem_range, List.headD_cons]
      rw [List.zip_cons_cons, List.zip_cons_cons, List.zip_nil_right]
      simp only [List.map_cons, List.map_nil, List.sum_cons, List.sum_nil]
      rw [List.getD_eq_getElem returns 0 h2]
      linear_combination returns[i] * hw
  · intro series weights out hout t ht
    rw [combine] at hout
    by_cases hcond : series.length = weights.length ∧
        ∀ s ∈ series, s.length = (series.headD []).length
    · rw [if_pos hcond] at hout
      have hout' := Option.some.inj hout
      rw [← hout'] at ht ⊢
      rw [List.getD_eq_getElem _ _ ht]
      simp only [List.getElem_map, List.getElem_range]
    · rw [if_neg hcond] at hout
      cases hout

/-- Witness for C8 on the series [1/10, -1/20] with weights 3/4 and 1/4. -/
theorem combine_identity_witness :
    combine [[1/10, -1/20], [1/10, -1/20]] [3/4, 1/4] = some [1/10, -1/20] :=
  (combine_identity [1/10, -1/20] (3/4) (1/4) (by norm_num)).1

/-- Helper: rigorous lower bound on the discount factor e^(-0.05·0.25), from the
degree-3 Taylor remainder bound on the exponential. -/
theorem exp_discount_lb : (0.9875776 : ℝ) ≤ Real.exp (-(0.05 * 0.25)) := by
  have h : (-(0.05 * 0.25) : ℝ) = -0.0125 := by norm_num
  rw [h]
  have habs : |(-0.0125 : ℝ)| ≤ 1 := by
    rw [abs_of_nonpos (by norm_num)]; norm_num
  have hE := Real.exp_bound habs (show 0 < 3 by norm_num)
  rw [Finset.sum_range_succ, Finset.sum_range_succ, Finset.sum_range_one] at hE
  have habs2 : |(-0.0125 : ℝ)| = 0.0125 := by
    rw [abs_of_nonpos (by norm_num)]; norm_num
  rw [habs2] at hE
  have h2 := (abs_le.mp hE).1
  norm_num [Nat.factorial] at h2 ⊢
  linarith

/-- Helper: rigorous upper bound on the discount factor e^(-0.05·0.25). -/
theorem exp_discount_ub : Real.exp (-(0.05 * 0.25)) ≤ (0.9875786 : ℝ) := by
  have h : (-(0.05 * 0.25) : ℝ) = -0.0125 := by norm_num
  rw [h]
  have habs : |(-0.0125 : ℝ)| ≤ 1 := by
    rw [abs_of_nonpos (by norm_num)]; norm_num
  have hE := Real.exp_bound habs (show 0 < 3 by norm_num)
  rw [Finset.sum_range_succ, Finset.sum_range_succ, Finset.sum_range_one] at hE
  have habs2 : |(-0.0125 : ℝ)| = 0.0125 := by
    rw [abs_of_nonpos (by norm_num)]; norm_num
  rw [habs2] at hE
  have h2 := (abs_le.mp hE).2
  norm_num [Nat.factorial] at h2 ⊢
  linarith

/-- C9: known value — for the contract S=150, K=155, T=0.25, r=0.05, σ=0.25
(call), and any Φ matching the standard normal table at the two abscissae
d1 ≈ -0.09982 and d2 ≈ -0.22482 of that contract (Φ(d1) ∈ [0.46022, 0.46026]
and Φ(d2) ∈ [0.41105, 0.41109]), the price lies in [6.10, 6.15] and the delta
in [0.45, 0.47].  The discount factor is bounded by the rigorous Taylor
estimates above, so everything beyond the two table values is proved. -/
theorem known_value (Φ : ℝ → ℝ)
    (h1l : 0.46022 ≤ Φ (d1 aaplCall)) (h1u : Φ (d1 aaplCall) ≤ 0.46026)
    (h2l : 0.41105 ≤ Φ (d2 aaplCall)) (h2u : Φ (d2 aaplCall) ≤ 0.41109) :
    6.10 ≤ price Φ aaplCall ∧ price Φ aaplCall ≤ 6.15 ∧
    0.45 ≤ delta Φ aaplCall ∧ delta Φ aaplCall ≤ 0.47 := by
  have hprice : price Φ aaplCall =
      150 * Φ (d1 aaplCall) - 155 * Real.exp (-(0.05 * 0.25)) * Φ (d2 aaplCall) := by
    norm_num [price, aaplCall]
  have hdelta : delta Φ aaplCall = Φ (d1 aaplCall) := by
    norm_num [delta, aaplCall]
  have hEl := exp_discount_lb
  have hEu := exp_discount_ub
  have hEpos : (0 : ℝ) ≤ Real.exp (-(0.05 * 0.25)) := (Real.exp_pos _).le
  have hmulU : Real.exp (-(0.05 * 0.25)) * Φ (d2 aaplCall) ≤ 0.9875786 * 0.41109 :=
    mul_le_mul hEu h2u (by linarith) (by norm_num)
  have hmulL : (0.9875776 : ℝ) * 0.41105 ≤
      Real.exp (-(0.05 * 0.25)) * Φ (d2 aaplCall) :=
    mul_le_mul hEl h2l (by norm_num) hEpos
  refine ⟨?_, ?_, ?_, ?_⟩
  · rw [hprice]; nlinarith
  · rw [hprice]; nlinarith
  · rw [hdelta]; linarith
  · rw [hdelta]; linarith

/-- Helper: at the known-value contract d2 lies strictly below d1 (they differ
by σ√T = 0.125). -/
theorem d2_lt_d1_aapl : d2 aaplCall < d1 aaplCall := by
  have hT : (aaplCall.T : ℝ) = 0.5 ^ 2 := by norm_num [aaplCall]
  have hsq : Real.sqrt aaplCall.T = 0.5 := by
    rw [hT, Real.sqrt_sq (by norm_num)]
  have hsig : (aaplCall.sigma : ℝ) = 0.25 := rfl
  rw [d2, hsq, hsig]
  norm_num

/-- Witness for C9: the concrete table function `tableCDF` meets all four
bracket hypotheses, so the price and delta bounds hold for it. -/
theorem known_value_witness :
    6.10 ≤ price tableCDF aaplCall ∧ price tableCDF aaplCall ≤ 6.15 ∧
    0.45 ≤ delta tableCDF aaplCall ∧ delta tableCDF aaplCall ≤ 0.47 := by
  have hd2 : tableCDF (d2 aaplCall) = 0.41106 := by
    simp only [tableCDF]
    rw [if_pos le_rfl]
  have hd1 : tableCDF (d1 aaplCall) = 0.46024 := by
    simp only [tableCDF]
    rw [if_neg (not_le.mpr d2_lt_d1_aapl)]
  exact known_value tableCDF (by rw [hd1]; norm_num) (by rw [hd1]; norm_num)
    (by rw [hd2]; norm_num) (by rw [hd2]; norm_num)

end QuantFlow
